import Mathlib

/-!
Verification development for the Centscape extraction pipeline.

This file gives a shallow embedding of the URL canonicalizer
(app `UrlNormalizationService`), the server-side request validator
(`URLValidator`), the extraction orchestrator (`ExtractionService`) with
its quality gate and confidence scorer, the fallback extractor, the
client retry wrapper (`UrlPreviewService.fetchPreview`) and the wishlist
store (`DatabaseService`), and proves properties of these embeddings.

Modelling conventions:
- JavaScript strings are modelled as `String` or `List Char`; all inputs
  of interest are ASCII, where JS UTF-16 length and Lean codepoint
  length agree.
- The WHATWG `URL` constructor and the `url-parse` package are modelled
  by one parser, `parseUrlChars`, restricted to hierarchical
  `scheme://host[:port]/path?query#hash` URLs (the shape every claim is
  about).  The parser rejects hosts containing WHATWG-forbidden host
  code points, mirroring `new URL` raising `TypeError`.
- Floating point confidence arithmetic is modelled over `ℚ`; for the
  decimal constants involved (0.5, 0.05, 0.1, …) the JS double results
  coincide with the rational ones at every comparison made here.
- Asynchronous effects (axios requests, AsyncStorage) are passed in as
  explicit oracle functions or explicit state.
-/

deriving instance DecidableEq for Except

/-- ASCII lowercasing of one character, the fragment of JS
`String.prototype.toLowerCase` exercised by hostnames and titles. -/
def lowerChar (c : Char) : Char :=
  if 65 ≤ c.toNat ∧ c.toNat ≤ 90 then Char.ofNat (c.toNat + 32) else c

/-- Model of JS `String.prototype.toLowerCase` (ASCII fragment). -/
def lowerString (s : String) : String :=
  String.mk (s.data.map lowerChar)

/-- Whitespace recognised by the model of JS `String.prototype.trim`. -/
def isJsWhitespace (c : Char) : Bool :=
  decide (c = ' ' ∨ c = '\t' ∨ c = '\n' ∨ c = '\r')

/-- Model of JS `String.prototype.trim` on character lists. -/
def trimChars (l : List Char) : List Char :=
  ((l.dropWhile isJsWhitespace).reverse.dropWhile isJsWhitespace).reverse

/-- Boolean test that `needle` is a prefix of the second list. -/
def isPrefixL : List Char → List Char → Bool
  | [], _ => true
  | _ :: _, [] => false
  | a :: as, b :: bs => decide (a = b) && isPrefixL as bs

/-- Model of JS `String.prototype.includes` on character lists. -/
def containsSub (needle : List Char) : List Char → Bool
  | [] => needle.isEmpty
  | c :: rest => isPrefixL needle (c :: rest) || containsSub needle rest

/-- Model of JS `String.prototype.includes` on strings. -/
def containsStr (needle hay : String) : Bool :=
  containsSub needle.data hay.data

/-! URL parsing model (`new URL` of Node / `url-parse`, hierarchical URLs). -/

/-- Characters allowed after the first character of a URL scheme. -/
def isSchemeTailChar (c : Char) : Bool :=
  c.isAlpha || c.isDigit || decide (c = '+' ∨ c = '-' ∨ c = '.')

/-- A valid URL scheme: one alphabetic character followed by scheme chars. -/
def validScheme : List Char → Bool
  | [] => false
  | c :: rest => c.isAlpha && rest.all isSchemeTailChar

/-- WHATWG forbidden host code points (the ASCII ones). A host containing
one of these makes `new URL` throw. -/
def forbiddenHostChar (c : Char) : Bool :=
  decide (c = ' ' ∨ c = '\t' ∨ c = '\n' ∨ c = '\r' ∨ c = '#' ∨ c = '/' ∨
    c = ':' ∨ c = '<' ∨ c = '>' ∨ c = '?' ∨ c = '@' ∨ c = '[' ∨
    c = '\\' ∨ c = ']' ∨ c = '^' ∨ c = '|')

/-- Character admissible inside a hostname. -/
def isHostChar (c : Char) : Bool := !(forbiddenHostChar c)

/-- Splits `scheme://rest`, requiring a well-formed scheme followed by
the literal `://` (the hierarchical-URL shape). -/
def splitScheme (l : List Char) : Option (List Char × List Char) :=
  let scheme := l.takeWhile (fun c => decide (c ≠ ':'))
  match l.dropWhile (fun c => decide (c ≠ ':')) with
  | ':' :: '/' :: '/' :: rest => if validScheme scheme then some (scheme, rest) else none
  | _ => none

/-- Splits an authority into hostname and optional port. An empty port
after a colon is dropped, as `new URL` does; a non-numeric port is a
parse failure. -/
def splitHostPort (auth : List Char) : Option (List Char × Option (List Char)) :=
  let host := auth.takeWhile (fun c => decide (c ≠ ':'))
  match auth.dropWhile (fun c => decide (c ≠ ':')) with
  | [] => some (host, none)
  | ':' :: ds =>
    if ds = [] then some (host, none)
    else if ds.all Char.isDigit then some (host, some ds) else none
  | _ => none

/-- Character belonging to the authority component. -/
def isAuthorityChar (c : Char) : Bool := decide (c ≠ '/' ∧ c ≠ '?' ∧ c ≠ '#')

/-- Character belonging to the path component. -/
def isPathChar (c : Char) : Bool := decide (c ≠ '?' ∧ c ≠ '#')

/-- Splits a query string at each ampersand. -/
def splitAmp : List Char → List (List Char)
  | [] => [[]]
  | c :: rest =>
    if c = '&' then [] :: splitAmp rest
    else
      match splitAmp rest with
      | [] => [[c]]
      | g :: gs => (c :: g) :: gs

/-- Parses one `key=value` query part, splitting at the first equals
sign; a part without one gets an empty value (`querystringify`). -/
def parsePairChars (part : List Char) : List Char × List Char :=
  (part.takeWhile (fun c => decide (c ≠ '=')),
   (part.dropWhile (fun c => decide (c ≠ '='))).drop 1)

/-- Parses a raw query string into key-value pairs in order. -/
def parseQueryChars : List Char → List (List Char × List Char)
  | [] => []
  | l => (splitAmp l).map parsePairChars

/-- Parsed URL record, the model of a `url-parse` / `new URL` object:
scheme without the colon, raw hostname, optional port digits, raw path
(empty or starting with a slash), query as ordered key-value pairs, and
optional fragment without the hash sign. -/
structure ParsedUrl where
  protocol : List Char
  hostname : List Char
  port : Option (List Char)
  pathname : List Char
  query : List (List Char × List Char)
  hash : Option (List Char)
deriving DecidableEq, Repr

/-- The URL parser: model of `new URL` / `url-parse` on hierarchical
URLs. The protocol is lowercased as both parsers do; the hostname is
kept raw (every modelled caller lowercases it explicitly, as the source
does). -/
def parseUrlChars (l : List Char) : Option ParsedUrl :=
  match splitScheme l with
  | none => none
  | some (scheme, rest) =>
    let auth := rest.takeWhile isAuthorityChar
    let rest2 := rest.dropWhile isAuthorityChar
    match splitHostPort auth with
    | none => none
    | some (host, port) =>
      if host ≠ [] ∧ host.all isHostChar then
        let path := rest2.takeWhile isPathChar
        let rest3 := rest2.dropWhile isPathChar
        match rest3 with
        | '?' :: r =>
          let q := r.takeWhile (fun c => decide (c ≠ '#'))
          let frag :=
            match r.dropWhile (fun c => decide (c ≠ '#')) with
            | '#' :: t => some t
            | _ => none
          some ⟨scheme.map lowerChar, host, port, path, parseQueryChars q, frag⟩
        | '#' :: t => some ⟨scheme.map lowerChar, host, port, path, [], some t⟩
        | _ => some ⟨scheme.map lowerChar, host, port, path, [], none⟩
      else none

/-- Serializes one query pair as `key=value`. -/
def serializePairChars (kv : List Char × List Char) : List Char :=
  kv.1 ++ '=' :: kv.2

/-- Joins query parts with ampersands. -/
def joinAmp : List (List Char) → List Char
  | [] => []
  | [x] => x
  | x :: xs => x ++ '&' :: joinAmp xs

/-- Serializes a query, prefixing a question mark when non-empty
(`querystringify.stringify` as used by `url-parse.toString`). -/
def serializeQueryChars : List (List Char × List Char) → List Char
  | [] => []
  | ps => '?' :: joinAmp (ps.map serializePairChars)

/-- Serializes the optional port. -/
def serializePortChars : Option (List Char) → List Char
  | none => []
  | some ds => ':' :: ds

/-- Serializes the optional fragment. -/
def serializeHashChars : Option (List Char) → List Char
  | none => []
  | some h => '#' :: h

/-- Model of `url-parse`'s `toString`: scheme, `://`, host with port,
path, query, fragment. -/
def serializeUrlChars (p : ParsedUrl) : List Char :=
  p.protocol ++ ':' :: '/' :: '/' ::
    (p.hostname ++ serializePortChars p.port ++ p.pathname ++
      serializeQueryChars p.query ++ serializeHashChars p.hash)

/-- The UTM query parameters stripped by `UrlNormalizationService`
(`UrlNormalizationService.UTM_PARAMS`). -/
def UTM_PARAMS : List (List Char) :=
  ["utm_source", "utm_medium", "utm_campaign", "utm_term", "utm_content",
   "utm_id", "utm_source_platform", "utm_creative_format",
   "utm_marketing_tactic"].map String.data

/-- Test for the literal host prefix `www.` (JS `startsWith`). -/
def startsWithWww (l : List Char) : Bool := decide (l.take 4 = "www.".data)

/-- Strips one leading `www.` from a host, as
`normalizedHost.substring(4)` does. -/
def stripWww (l : List Char) : List Char :=
  if startsWithWww l then l.drop 4 else l

/-- The component-level normalization performed by
`UrlNormalizationService.normalizeUrl` before re-serialization: protocol
forced to https, host lowercased with one `www.` stripped, fragment
removed, UTM query keys deleted. -/
def normalizeParsedUrl (p : ParsedUrl) : ParsedUrl :=
  { protocol := "https".data
    hostname := stripWww (p.hostname.map lowerChar)
    port := p.port
    pathname := p.pathname
    query := p.query.filter (fun kv => !(UTM_PARAMS.contains kv.1))
    hash := none }

/-- Error taxonomy of the client application (`ErrorType` in
`src/app/src/types/index.ts`). -/
inductive ErrorType
  | network
  | validation
  | notFound
  | duplicate
  | unknown
deriving DecidableEq, Repr

/-- Application error record (`AppError` in the client types). -/
structure AppError where
  type : ErrorType
  message : String
  retryable : Bool
deriving DecidableEq, Repr

/-- Removes one trailing slash, the model of
`cleanUrl.replace(/\/$/, '')`. -/
def stripTrailingSlash (l : List Char) : List Char :=
  if l.getLast? = some '/' then l.dropLast else l

/-- Model of `UrlNormalizationService.normalizeUrl`: validate and parse,
normalize components, re-serialize, drop one trailing slash; any parse
failure becomes the non-retryable validation `AppError` thrown there. -/
def normalizeUrl (url : String) : Except AppError String :=
  match parseUrlChars url.data with
  | none => .error ⟨ErrorType.validation, "Invalid URL format", false⟩
  | some parsed =>
    .ok (String.mk (stripTrailingSlash (serializeUrlChars (normalizeParsedUrl parsed))))

/-- Model of `UrlNormalizationService.isValidUrl` (`new URL` succeeding,
on the hierarchical-URL domain of this model). -/
def isValidUrl (url : String) : Bool :=
  (parseUrlChars url.data).isSome

/-- Test for the `^https?:\/\/` pattern of `sanitizeUrl`. -/
def startsHttpScheme (l : List Char) : Bool :=
  decide (l.take 7 = "http://".data) || decide (l.take 8 = "https://".data)

/-- Model of `UrlNormalizationService.sanitizeUrl`: trim, then prefix
`https://` when no http(s) scheme is present. -/
def sanitizeUrl (url : String) : String :=
  let t := trimChars url.data
  if startsHttpScheme t then String.mk t else String.mk ("https://".data ++ t)

/-! Server-side request validation (`URLValidator` and the blocked-host
configuration of `ConfigManager`). -/

/-- The SSRF deny-list `security.blockedPatterns` of
`ConfigManager.createConfig`, verbatim. -/
def blockedPatterns : List (List Char) :=
  ["localhost", "127.0.0.1", "0.0.0.0", "10.0.0.0/8", "172.16.0.0/12",
   "192.168.0.0/16", "169.254.0.0/16", "::1", "fc00::/7",
   "fe80::/10"].map String.data

/-- Result record of a validator (`ValidationResult`). -/
structure ValidationResult where
  isValid : Bool
  errors : List String
deriving DecidableEq, Repr

/-- Model of `URLValidator.validate`: emptiness checks, URL parse,
protocol whitelist, hostname presence, then the blocked-pattern
substring scan over the lowercased hostname (first match pushes one
error and breaks). The source compares `urlObj.protocol` against
`http:`/`https:`; the model's protocol carries no colon. -/
def URLValidator.validate (url : String) : ValidationResult :=
  if url = "" then ⟨false, ["URL is required and must be a string"]⟩
  else if trimChars url.data = [] then ⟨false, ["URL cannot be empty"]⟩
  else
    match parseUrlChars url.data with
    | none => ⟨false, ["Invalid URL format"]⟩
    | some urlObj =>
      let protocolErrors :=
        if urlObj.protocol = "http".data ∨ urlObj.protocol = "https".data then []
        else ["URL must use HTTP or HTTPS protocol"]
      let hostnameErrors :=
        if urlObj.hostname = [] then ["URL must have a valid hostname"] else []
      let hostLower := urlObj.hostname.map lowerChar
      let blockedErrors :=
        if blockedPatterns.any (fun pat => containsSub pat hostLower) then
          ["Access to private/loopback IP addresses is not allowed"]
        else []
      let errors := protocolErrors ++ hostnameErrors ++ blockedErrors
      ⟨errors.isEmpty, errors⟩

/-! Extraction pipeline (`ExtractionService`, `FallbackExtractor`). -/

/-- Value of one field of an extraction result object. The modelled
extractors only ever construct strings, nulls, numbers and string
arrays. -/
inductive JsValue
  | null
  | str (s : String)
  | num (q : ℚ)
  | arr (ls : List String)
deriving DecidableEq

/-- An extraction result, modelled as the underlying JS object: its
present keys with their values, in insertion order
(`ExtractionResult` of the server types). -/
abbrev ExtractionResult := List (String × JsValue)

/-- The `title` field of a result when it is a truthy string
(JS `result.title &&` treats a missing field, null and the empty string
as false). -/
def truthyTitle (result : ExtractionResult) : Option String :=
  match result.lookup "title" with
  | some (JsValue.str s) => if s = "" then none else some s
  | _ => none

/-- Model of `ExtractionService.hasGoodData`, the quality gate: a truthy
title longer than 20 characters that does not contain a generic
landing-page phrase, case-insensitively. -/
def hasGoodData (result : ExtractionResult) : Bool :=
  match truthyTitle result with
  | none => false
  | some t =>
    decide (20 < t.length) &&
    !(containsStr "online shopping" (lowerString t)) &&
    !(containsStr "welcome to" (lowerString t)) &&
    !(containsStr "home page" (lowerString t))

/-- Extraction method tags (`ExtractionMethod` of the server types). -/
inductive ExtractionMethod
  | httpExtraction
  | fastAi
  | fallback
deriving DecidableEq, Repr

/-- A strategy as seen by the orchestrator (`IExtractor`): its class
name, `canExtract`, `extract` and `getPriority`. `extract` returns the
thrown error message on failure. -/
structure Extractor where
  name : String
  canExtract : String → Bool
  extract : String → Except String ExtractionResult
  getPriority : Int

/-- Model of `ExtractionService.getExtractionMethod`: substring match on
the lowercased class name. -/
def getExtractionMethod (e : Extractor) : ExtractionMethod :=
  let className := lowerString e.name
  if containsStr "http" className then .httpExtraction
  else if containsStr "ai" className then .fastAi
  else .fallback

/-- Model of `ExtractionService.calculateConfidence`: a method base
value plus a completeness bonus of 0.05 per non-null field, the bonus
capped at 0.1 and the sum capped at 1.0. -/
def calculateConfidence (result : ExtractionResult) (method : ExtractionMethod) : ℚ :=
  let confidence : ℚ :=
    match method with
    | .fastAi => 0.9
    | .httpExtraction => 0.8
    | .fallback => 0.5
  let fieldsCount := (result.filter (fun kv => decide (kv.2 ≠ JsValue.null))).length
  let qualityBonus := min ((fieldsCount : ℚ) * 0.05) 0.1
  min (confidence + qualityBonus) 1.0

/-- Errors thrown by `ExtractionService.extract`: either the last error
recorded from a strategy, or its own `No extractors available` error.
The two are distinct throw sites in the source. -/
inductive ExtractError
  | strategy (message : String)
  | noExtractors
deriving DecidableEq, Repr

/-- Successful return value of `ExtractionService.extract`:
`{ result, method, confidence }`. -/
structure ExtractionOutcome where
  result : ExtractionResult
  method : ExtractionMethod
  confidence : ℚ
deriving DecidableEq

/-- Stable insertion of an extractor into a priority-sorted list,
placing it before the first strictly larger priority. -/
def insertByPriority (e : Extractor) : List Extractor → List Extractor
  | [] => [e]
  | x :: xs =>
    if x.getPriority < e.getPriority then x :: insertByPriority e xs
    else e :: x :: xs

/-- Model of `[...extractors].sort((a, b) => a.getPriority() -
b.getPriority())`: a stable ascending sort by priority. -/
def sortExtractors : List Extractor → List Extractor
  | [] => []
  | x :: xs => insertByPriority x (sortExtractors xs)

/-- The orchestrator loop of `ExtractionService.extract` over the sorted
extractor list, carrying the last recorded strategy error: skip when
`canExtract` is false, accept the first gate-passing result with its
confidence, record thrown errors and continue; at the end re-throw the
last error, or `No extractors available` when none was recorded. -/
def extractGo (url : String) : List Extractor → Option String → Except ExtractError ExtractionOutcome
  | [], some e => .error (.strategy e)
  | [], none => .error .noExtractors
  | ex :: rest, lastError =>
    if ex.canExtract url then
      match ex.extract url with
      | .ok result =>
        if hasGoodData result then
          .ok ⟨result, getExtractionMethod ex, calculateConfidence result (getExtractionMethod ex)⟩
        else extractGo url rest lastError
      | .error e => extractGo url rest (some e)
    else extractGo url rest lastError

/-- Model of `ExtractionService.extract` with the default options (no
`forceMethod`): sort by priority and run the strategy loop. -/
def ExtractionService.extract (extractors : List Extractor) (url : String) :
    Except ExtractError ExtractionOutcome :=
  extractGo url (sortExtractors extractors) none

/-- The record built by `FallbackExtractor.extract` from a hostname. -/
def fallbackRecord (hostname : String) : ExtractionResult :=
  [("title", .str ("Page from " ++ hostname)),
   ("description", .str ("Content from " ++ hostname)),
   ("siteName", .str hostname),
   ("contentType", .str "webpage")]

/-- Model of `FallbackExtractor`: always claims it can extract, priority
3, and derives the stub record from the parsed hostname (the `new URL`
constructor throwing on an unparseable URL is the only failure). -/
def FallbackExtractor : Extractor :=
  { name := "FallbackExtractor"
    canExtract := fun _ => true
    extract := fun url =>
      match parseUrlChars url.data with
      | none => .error "Invalid URL"
      | some p => .ok (fallbackRecord (String.mk p.hostname))
    getPriority := 3 }

/-- Scenario double for the claims that quantify over failing
higher-priority strategies: an `HttpExtractor` whose fetch always
throws. -/
def failingHttpExtractor : Extractor :=
  { name := "HttpExtractor"
    canExtract := fun _ => true
    extract := fun _ => .error "Request failed"
    getPriority := 1 }

/-- Scenario double for a skipped strategy: an `AIExtractor` whose
`canExtract` is false (missing OpenAI credential). -/
def skippedAIExtractor : Extractor :=
  { name := "AIExtractor"
    canExtract := fun _ => false
    extract := fun _ => .error "OpenAI API key not configured"
    getPriority := 2 }

/-! Client retry wrapper (`UrlPreviewService.fetchPreview`). -/

/-- Preview record returned to the client (`UrlPreview`). -/
structure UrlPreview where
  title : String
  description : Option String
  imageUrl : Option String
  price : Option String
  sourceDomain : String
  originalUrl : String
  normalizedUrl : String
deriving DecidableEq, Repr

/-- `UrlPreviewService.MAX_RETRIES`. -/
def MAX_RETRIES : Nat := 3

/-- `UrlPreviewService.RETRY_DELAY` in milliseconds. -/
def RETRY_DELAY : Nat := 1000

/-- Observable trace of one `fetchPreview` call: its result, how many
request attempts were made, and the delays awaited between attempts in
order. -/
structure FetchTrace where
  result : Except AppError UrlPreview
  attempts : Nat
  delays : List Nat
deriving DecidableEq, Repr

/-- The retry loop of `fetchPreview` over the remaining attempt numbers.
The per-attempt oracle `tryAttempt` stands for
`makeRequest(sanitizedUrl)` followed by `parsePreviewData`, returning
the thrown error message on failure. After attempt `a < MAX_RETRIES`
fails, the loop waits `RETRY_DELAY * a`; when all attempts are spent it
throws the retryable network `AppError` referencing the last error. -/
def fetchGo (tryAttempt : Nat → Except String UrlPreview) :
    List Nat → Option String → Nat → List Nat → FetchTrace
  | [], lastError, attemptsMade, delays =>
    ⟨.error ⟨ErrorType.network,
        "Failed to fetch preview after " ++ toString MAX_RETRIES ++ " attempts: " ++
          (match lastError with | some m => m | none => "undefined"),
        true⟩,
      attemptsMade, delays⟩
  | attempt :: rest, _, attemptsMade, delays =>
    match tryAttempt attempt with
    | .ok preview => ⟨.ok preview, attemptsMade + 1, delays⟩
    | .error e =>
      if attempt < MAX_RETRIES then
        fetchGo tryAttempt rest (some e) (attemptsMade + 1) (delays ++ [RETRY_DELAY * attempt])
      else fetchGo tryAttempt rest (some e) (attemptsMade + 1) delays

/-- Model of `UrlPreviewService.fetchPreview`: sanitize, reject an
invalid sanitized URL with a non-retryable validation error before any
request, otherwise run attempts 1 to `MAX_RETRIES`. -/
def fetchPreview (tryAttempt : Nat → Except String UrlPreview) (url : String) : FetchTrace :=
  let sanitizedUrl := sanitizeUrl url
  if isValidUrl sanitizedUrl then fetchGo tryAttempt (List.range' 1 MAX_RETRIES) none 0 []
  else ⟨.error ⟨ErrorType.validation, "Invalid URL provided", false⟩, 0, []⟩

/-! Wishlist store (`DatabaseService`, plus the error classification of
`wishlistStore.addItem`). -/

/-- Persisted wishlist entry (`WishlistItem` of the client types). -/
structure WishlistItem where
  id : String
  title : String
  imageUrl : Option String
  price : Option String
  sourceDomain : String
  originalUrl : String
  normalizedUrl : String
  createdAt : String
  updatedAt : String
deriving DecidableEq, Repr

/-- Argument of `DatabaseService.addItem`:
`Omit<WishlistItem, 'id' | 'createdAt' | 'updatedAt'>`. -/
structure NewWishlistItem where
  title : String
  imageUrl : Option String
  price : Option String
  sourceDomain : String
  originalUrl : String
  normalizedUrl : String
deriving DecidableEq, Repr

/-- Argument of `DatabaseService.updateItem`: `Partial<WishlistItem>`,
each field optionally overridden. -/
structure WishlistItemPatch where
  id : Option String := none
  title : Option String := none
  imageUrl : Option (Option String) := none
  price : Option (Option String) := none
  sourceDomain : Option String := none
  originalUrl : Option String := none
  normalizedUrl : Option String := none
  createdAt : Option String := none
  updatedAt : Option String := none
deriving DecidableEq, Repr

/-- Model of `DatabaseService.addItem` on the stored list, with the
generated id and the timestamp passed explicitly: reject a duplicate
`normalizedUrl` with the thrown error message, otherwise append the new
item and save. -/
def DatabaseService.addItem (items : List WishlistItem) (item : NewWishlistItem)
    (newId now : String) : Except String (WishlistItem × List WishlistItem) :=
  if items.any (fun ex => decide (ex.normalizedUrl = item.normalizedUrl)) then
    .error "Item already exists in wishlist"
  else
    let newItem : WishlistItem :=
      ⟨newId, item.title, item.imageUrl, item.price, item.sourceDomain,
        item.originalUrl, item.normalizedUrl, now, now⟩
    .ok (newItem, items ++ [newItem])

/-- The stored list after `addItem`: unchanged when the call threw
(`saveItems` never ran), the saved list otherwise. -/
def DatabaseService.addItemStore (items : List WishlistItem) (item : NewWishlistItem)
    (newId now : String) : List WishlistItem :=
  match DatabaseService.addItem items item newId now with
  | .ok (_, saved) => saved
  | .error _ => items

/-- The object spread `{ ...items[index], ...updates, updatedAt: now }`
of `DatabaseService.updateItem`. -/
def applyPatch (it : WishlistItem) (u : WishlistItemPatch) (now : String) : WishlistItem :=
  { id := u.id.getD it.id
    title := u.title.getD it.title
    imageUrl := u.imageUrl.getD it.imageUrl
    price := u.price.getD it.price
    sourceDomain := u.sourceDomain.getD it.sourceDomain
    originalUrl := u.originalUrl.getD it.originalUrl
    normalizedUrl := u.normalizedUrl.getD it.normalizedUrl
    createdAt := u.createdAt.getD it.createdAt
    updatedAt := now }

/-- Model of `DatabaseService.updateItem`: find by id, overwrite in
place with the spread patch, save; `(none, items)` when the id is
unknown. -/
def DatabaseService.updateItem (items : List WishlistItem) (id : String)
    (updates : WishlistItemPatch) (now : String) : Option WishlistItem × List WishlistItem :=
  match items.findIdx? (fun it => decide (it.id = id)) with
  | none => (none, items)
  | some i =>
    match items.get? i with
    | none => (none, items)
    | some it =>
      let updated := applyPatch it updates now
      (some updated, items.set i updated)

/-- Model of `DatabaseService.deleteItem`: filter the id out; report
whether anything was removed. -/
def DatabaseService.deleteItem (items : List WishlistItem) (id : String) :
    Bool × List WishlistItem :=
  let filteredItems := items.filter (fun it => decide (it.id ≠ id))
  if filteredItems.length = items.length then (false, items) else (true, filteredItems)

/-- The store invariant: no two stored entries share a
`normalizedUrl`. -/
def noDupNormalizedUrl (items : List WishlistItem) : Prop :=
  (items.map (·.normalizedUrl)).Nodup

instance (items : List WishlistItem) : Decidable (noDupNormalizedUrl items) :=
  inferInstanceAs (Decidable (List.Nodup _))

/-- The error classification applied by `wishlistStore.addItem` to an
error thrown by `DatabaseService.addItem`: a message containing
`already exists` becomes the non-retryable `DUPLICATE` app error, any
other message a retryable network error. -/
def classifyAddError (msg : String) : AppError :=
  if containsStr "already exists" msg then
    ⟨ErrorType.duplicate, "This item is already in your wishlist", false⟩
  else ⟨ErrorType.network, msg, true⟩

/-- The messages thrown by the strategies that ran (in list order), the
successive values taken by the orchestrator's `lastError`. -/
def thrownMessages (url : String) (es : List Extractor) : List String :=
  es.filterMap (fun e =>
    if e.canExtract url then
      match e.extract url with
      | .error m => some m
      | .ok _ => none
    else none)

/-- No strategy of the list produced a gate-accepted result on `url`:
every strategy that can extract either throws or returns a record the
quality gate rejects. -/
def noAcceptedResult (url : String) (es : List Extractor) : Prop :=
  ∀ e ∈ es, e.canExtract url = true → ∀ r, e.extract url = .ok r → hasGoodData r = false

/-- Well-formedness of a parsed-URL record sufficient for the
serializer and the parser to round-trip: an https protocol, a non-empty
hostname of admissible characters, a numeric port when present, a path
that is empty or slash-led and free of query and fragment delimiters,
query keys and values free of their delimiters, and no fragment. The
normalized record of every parseable URL with a surviving hostname has
this shape. -/
def WellFormedUrl (p : ParsedUrl) : Prop :=
  p.protocol = "https".data ∧
  p.hostname ≠ [] ∧
  (∀ c ∈ p.hostname, isHostChar c = true) ∧
  (∀ ds, p.port = some ds → ds ≠ [] ∧ ∀ c ∈ ds, c.isDigit = true) ∧
  (p.pathname = [] ∨ ∃ t, p.pathname = '/' :: t) ∧
  (∀ c ∈ p.pathname, c ≠ '?' ∧ c ≠ '#') ∧
  (∀ kv ∈ p.query,
    (∀ c ∈ kv.1, c ≠ '&' ∧ c ≠ '=' ∧ c ≠ '#') ∧
    (∀ c ∈ kv.2, c ≠ '&' ∧ c ≠ '#')) ∧
  p.hash = none

/-! Theorems. -/

/-- C9: normalizeUrl on the worked spec example strips the `www.`
prefix, the `utm_source` parameter and the fragment, keeps `ref=123`,
and returns exactly the expected canonical URL. -/
theorem normalizeUrl_amazon_example :
    normalizeUrl "https://www.amazon.com/product?utm_source=google&ref=123#section" =
      .ok "https://amazon.com/product?ref=123" := by decide

/-- C3: the request validator accepts RFC1918 hosts such as 10.1.2.3,
192.168.1.5 and 172.16.0.5 (the CIDR entries of the deny-list can never
match a hostname by substring), while a literal deny-list entry such as
127.0.0.1 is rejected. -/
theorem validate_allows_rfc1918_hosts :
    URLValidator.validate "http://10.1.2.3/" = ⟨true, []⟩ ∧
    URLValidator.validate "http://192.168.1.5/" = ⟨true, []⟩ ∧
    URLValidator.validate "http://172.16.0.5/" = ⟨true, []⟩ ∧
    URLValidator.validate "http://127.0.0.1/" =
      ⟨false, ["Access to private/loopback IP addresses is not allowed"]⟩ := by decide

/-- C4 counterexample: normalizeUrl is not idempotent; on a host with a
repeated `www.` prefix a second application strips a second prefix. -/
theorem normalizeUrl_not_idempotent :
    Except.bind (normalizeUrl "https://www.www.example.com") normalizeUrl ≠
      normalizeUrl "https://www.www.example.com" := by decide

/-- C6 counterexample: normalizeUrl on a schemeless URL string does not
assume https; it fails with the validation error. -/
theorem normalizeUrl_rejects_schemeless :
    normalizeUrl "example.com/path" =
      .error ⟨ErrorType.validation, "Invalid URL format", false⟩ := by decide

/-- C1 counterexample: with both higher-priority strategies failing or
skipped and the fallback record accepted by the gate, the orchestrator
returns the fallback-tagged outcome with confidence 0.6, not 0.5: the
fallback record always has four non-null fields, earning the capped
0.1 completeness bonus. -/
theorem extract_fallback_confidence_counterexample :
    ExtractionService.extract [failingHttpExtractor, skippedAIExtractor, FallbackExtractor]
        "https://supermarket.com/x" =
      .ok ⟨fallbackRecord "supermarket.com", .fallback,
        calculateConfidence (fallbackRecord "supermarket.com") .fallback⟩ ∧
    calculateConfidence (fallbackRecord "supermarket.com") .fallback = 0.6 ∧
    (0.6 : ℚ) ≠ 0.5 := by
  refine ⟨rfl, ?_, by norm_num⟩
  have h4 : calculateConfidence (fallbackRecord "supermarket.com") .fallback =
      min ((0.5 : ℚ) + min (((4 : ℕ) : ℚ) * 0.05) 0.1) 1.0 := rfl
  rw [h4]
  norm_num

/-- C2 counterexample: on the valid URL https://a.co/x the pipeline
fails outright even though the fallback extractor succeeds: its title
`Page from a.co` has 14 characters, the gate demands more than 20, so
the orchestrator re-throws the HTTP strategy's error. -/
theorem extract_fails_on_short_host :
    isValidUrl "https://a.co/x" = true ∧
    ExtractionService.extract [failingHttpExtractor, skippedAIExtractor, FallbackExtractor]
        "https://a.co/x" = .error (.strategy "Request failed") := by decide

/-- C7 counterexample: the `No extractors available` error is thrown
although a strategy ran: the fallback's `canExtract` is true and its
`extract` succeeds, but the gate rejects its record and no error was
ever recorded. -/
theorem noExtractors_thrown_after_strategy_ran :
    FallbackExtractor.canExtract "https://a.co/x" = true ∧
    FallbackExtractor.extract "https://a.co/x" = .ok (fallbackRecord "a.co") ∧
    ExtractionService.extract [FallbackExtractor] "https://a.co/x" =
      .error .noExtractors := by
  refine ⟨rfl, rfl, by decide⟩

/-- C5 counterexample: updateItem does not preserve the no-duplicate
invariant: patching one entry's normalizedUrl to another entry's value
saves a list with two entries sharing a canonical URL. -/
theorem updateItem_breaks_dedup :
    noDupNormalizedUrl
      [⟨"id1", "A", none, none, "a.com", "https://a.com", "https://a.com", "t0", "t0"⟩,
       ⟨"id2", "B", none, none, "b.com", "https://b.com", "https://b.com", "t0", "t0"⟩] ∧
    ¬ noDupNormalizedUrl
      (DatabaseService.updateItem
        [⟨"id1", "A", none, none, "a.com", "https://a.com", "https://a.com", "t0", "t0"⟩,
         ⟨"id2", "B", none, none, "b.com", "https://b.com", "https://b.com", "t0", "t0"⟩]
        "id1" { normalizedUrl := some "https://b.com" } "t1").2 := by decide

/-- Confidence bound helper: every confidence the scorer can produce
lies in the closed interval from 0.5 to 1. -/
theorem calculateConfidence_bounds (result : ExtractionResult) (method : ExtractionMethod) :
    (0.5 : ℚ) ≤ calculateConfidence result method ∧ calculateConfidence result method ≤ 1 := by
  unfold calculateConfidence
  set n := (result.filter (fun kv => decide (kv.2 ≠ JsValue.null))).length with hn
  have hbonus : (0 : ℚ) ≤ min ((n : ℚ) * 0.05) 0.1 := by
    apply le_min
    · positivity
    · norm_num
  constructor
  · apply le_min
    · have hbase : (0.5 : ℚ) ≤
          (match method with
            | .fastAi => (0.9 : ℚ)
            | .httpExtraction => 0.8
            | .fallback => 0.5) := by
        cases method <;> norm_num
      linarith
    · norm_num
  · exact le_trans (min_le_right _ _) (by norm_num)

/-- Any successful orchestrator outcome carries the confidence computed
by the scorer for its record and method. -/
theorem extractGo_ok_confidence (url : String) :
    ∀ (es : List Extractor) (last : Option String) (out : ExtractionOutcome),
      extractGo url es last = .ok out →
      out.confidence = calculateConfidence out.result out.method := by
  intro es
  induction es with
  | nil =>
    intro last out h
    cases last <;> simp [extractGo] at h
  | cons ex rest ih =>
    intro last out h
    unfold extractGo at h
    by_cases hc : ex.canExtract url
    · rw [if_pos hc] at h
      cases hex : ex.extract url with
      | ok r =>
        rw [hex] at h
        have h2 : (if hasGoodData r = true then
            Except.ok (⟨r, getExtractionMethod ex,
              calculateConfidence r (getExtractionMethod ex)⟩ : ExtractionOutcome)
          else extractGo url rest last) = Except.ok out := h
        by_cases hg : hasGoodData r = true
        · rw [if_pos hg] at h2
          injection h2 with h3
          subst h3
          rfl
        · rw [if_neg hg] at h2
          exact ih last out h2
      | error e =>
        rw [hex] at h
        exact ih (some e) out h
    · rw [if_neg hc] at h
      exact ih last out h

/-- C10: every outcome the orchestrator returns has confidence between
0.5 and 1.0 inclusive. -/
theorem extract_confidence_in_range (es : List Extractor) (url : String)
    (out : ExtractionOutcome) (h : ExtractionService.extract es url = .ok out) :
    (0.5 : ℚ) ≤ out.confidence ∧ out.confidence ≤ 1 := by
  have hc := extractGo_ok_confidence url (sortExtractors es) none out h
  rw [hc]
  exact calculateConfidence_bounds out.result out.method

/-- C10 witness: the bound instantiated on a concrete successful
extraction. -/
theorem extract_confidence_in_range_witness :
    (0.5 : ℚ) ≤ calculateConfidence (fallbackRecord "supermarket.com") .fallback ∧
    calculateConfidence (fallbackRecord "supermarket.com") .fallback ≤ 1 :=
  extract_confidence_in_range [FallbackExtractor] "https://supermarket.com/x"
    ⟨fallbackRecord "supermarket.com", .fallback,
      calculateConfidence (fallbackRecord "supermarket.com") .fallback⟩ rfl

/-- Running the loop through a block of strategies that are each skipped
or fail only updates the recorded last error. -/
theorem extractGo_skip_fail (url : String) :
    ∀ (es l2 : List Extractor) (last : Option String),
      (∀ e ∈ es, e.canExtract url = false ∨ ∃ m, e.extract url = .error m) →
      ∃ last2, extractGo url (es ++ l2) last = extractGo url l2 last2 := by
  intro es
  induction es with
  | nil => exact fun l2 last _ => ⟨last, rfl⟩
  | cons ex rest ih =>
    intro l2 last h
    have hex := h ex (List.mem_cons_self ex rest)
    have hrest : ∀ e ∈ rest, e.canExtract url = false ∨ ∃ m, e.extract url = .error m :=
      fun e he => h e (List.mem_cons_of_mem ex he)
    rcases hex with hskip | ⟨m, herr⟩
    · have : extractGo url (ex :: rest ++ l2) last = extractGo url (rest ++ l2) last := by
        simp [extractGo, hskip]
      rw [this]
      exact ih l2 last hrest
    · by_cases hc : ex.canExtract url
      · have : extractGo url (ex :: rest ++ l2) last = extractGo url (rest ++ l2) (some m) := by
          simp [extractGo, hc, herr]
        rw [this]
        exact ih l2 (some m) hrest
      · have : extractGo url (ex :: rest ++ l2) last = extractGo url (rest ++ l2) last := by
          simp [extractGo, hc]
        rw [this]
        exact ih l2 last hrest

/-- The fallback extractor alone, on a parseable URL whose stub record
passes the gate, yields the fallback-tagged outcome whatever error was
recorded before. -/
theorem extractGo_fallback_accept (url : String) (p : ParsedUrl)
    (hp : parseUrlChars url.data = some p)
    (hg : hasGoodData (fallbackRecord (String.mk p.hostname)) = true) :
    ∀ last, extractGo url [FallbackExtractor] last =
      .ok ⟨fallbackRecord (String.mk p.hostname), .fallback,
        calculateConfidence (fallbackRecord (String.mk p.hostname)) .fallback⟩ := by
  intro last
  have hex : FallbackExtractor.extract url = .ok (fallbackRecord (String.mk p.hostname)) := by
    simp [FallbackExtractor, hp]
  have hm : getExtractionMethod FallbackExtractor = .fallback := rfl
  have hcan : FallbackExtractor.canExtract url = true := rfl
  simp [extractGo, hcan, hex, hg, hm]

/-- The fallback extractor alone, when the gate rejects its stub record,
lets the loop fall through to the terminal error. -/
theorem extractGo_fallback_reject (url : String) (p : ParsedUrl)
    (hp : parseUrlChars url.data = some p)
    (hg : hasGoodData (fallbackRecord (String.mk p.hostname)) = false) :
    ∀ last, ∃ err, extractGo url [FallbackExtractor] last = .error err := by
  intro last
  have hex : FallbackExtractor.extract url = .ok (fallbackRecord (String.mk p.hostname)) := by
    simp [FallbackExtractor, hp]
  have hcan : FallbackExtractor.canExtract url = true := rfl
  cases last with
  | none => exact ⟨.noExtractors, by simp [extractGo, hcan, hex, hg]⟩
  | some m => exact ⟨.strategy m, by simp [extractGo, hcan, hex, hg]⟩

/-- The scorer on the fallback stub record: base 0.5 plus the capped
bonus 0.1 for its four non-null fields. -/
theorem fallback_confidence (hostname : String) :
    calculateConfidence (fallbackRecord hostname) .fallback = 0.6 := by
  have h : calculateConfidence (fallbackRecord hostname) .fallback =
      min ((0.5 : ℚ) + min (((4 : ℕ) : ℚ) * 0.05) 0.1) 1.0 := rfl
  rw [h]
  norm_num

/-- C1 amended: if every strategy before the fallback in priority order
fails or is skipped and the gate accepts the fallback record, the
orchestrator returns the fallback-tagged outcome with confidence
exactly 0.6. -/
theorem extract_fallback_outcome (es es' : List Extractor) (url : String) (p : ParsedUrl)
    (hsort : sortExtractors es = es' ++ [FallbackExtractor])
    (hfail : ∀ e ∈ es', e.canExtract url = false ∨ ∃ m, e.extract url = .error m)
    (hp : parseUrlChars url.data = some p)
    (hg : hasGoodData (fallbackRecord (String.mk p.hostname)) = true) :
    ExtractionService.extract es url =
      .ok ⟨fallbackRecord (String.mk p.hostname), .fallback, 0.6⟩ := by
  unfold ExtractionService.extract
  rw [hsort]
  obtain ⟨last2, hstep⟩ := extractGo_skip_fail url es' [FallbackExtractor] none hfail
  rw [hstep, extractGo_fallback_accept url p hp hg last2, fallback_confidence]

/-- C1 witness: the amended statement instantiated on the concrete
pipeline of a failing HTTP strategy, a skipped AI strategy and the
fallback. -/
theorem extract_fallback_outcome_witness :
    ExtractionService.extract [failingHttpExtractor, skippedAIExtractor, FallbackExtractor]
        "https://supermarket.com/x" =
      .ok ⟨fallbackRecord "supermarket.com", .fallback, 0.6⟩ :=
  extract_fallback_outcome
    [failingHttpExtractor, skippedAIExtractor, FallbackExtractor]
    [failingHttpExtractor, skippedAIExtractor]
    "https://supermarket.com/x"
    ⟨"https".data, "supermarket.com".data, none, "/x".data, [], none⟩
    rfl
    (by
      intro e he
      fin_cases he
      · exact Or.inr ⟨"Request failed", rfl⟩
      · exact Or.inl rfl)
    rfl
    rfl

/-- C2 amended: with every strategy before the fallback failing or
skipped, the pipeline succeeds exactly when the quality gate accepts the
fallback stub record, which demands a title longer than 20 characters
(`Page from ` plus a hostname of at least 11 characters). -/
theorem extract_ok_iff_fallback_gate (es es' : List Extractor) (url : String) (p : ParsedUrl)
    (hsort : sortExtractors es = es' ++ [FallbackExtractor])
    (hfail : ∀ e ∈ es', e.canExtract url = false ∨ ∃ m, e.extract url = .error m)
    (hp : parseUrlChars url.data = some p) :
    (∃ out, ExtractionService.extract es url = .ok out) ↔
      hasGoodData (fallbackRecord (String.mk p.hostname)) = true := by
  constructor
  · rintro ⟨out, hout⟩
    by_contra hg
    have hg' : hasGoodData (fallbackRecord (String.mk p.hostname)) = false :=
      Bool.not_eq_true _ ▸ Bool.eq_false_iff.mpr (fun h => hg h)
    unfold ExtractionService.extract at hout
    rw [hsort] at hout
    obtain ⟨last2, hstep⟩ := extractGo_skip_fail url es' [FallbackExtractor] none hfail
    rw [hstep] at hout
    obtain ⟨err, herr⟩ := extractGo_fallback_reject url p hp hg' last2
    rw [herr] at hout
    cases hout
  · intro hg
    refine ⟨⟨fallbackRecord (String.mk p.hostname), .fallback,
      calculateConfidence (fallbackRecord (String.mk p.hostname)) .fallback⟩, ?_⟩
    unfold ExtractionService.extract
    rw [hsort]
    obtain ⟨last2, hstep⟩ := extractGo_skip_fail url es' [FallbackExtractor] none hfail
    rw [hstep, extractGo_fallback_accept url p hp hg last2]

/-- C2 witness: the gate equivalence instantiated on the concrete
pipeline, with the long host on which extraction succeeds. -/
theorem extract_ok_iff_fallback_gate_witness :
    ((∃ out, ExtractionService.extract
        [failingHttpExtractor, skippedAIExtractor, FallbackExtractor]
        "https://supermarket.com/x" = .ok out) ↔
      hasGoodData (fallbackRecord "supermarket.com") = true) :=
  extract_ok_iff_fallback_gate
    [failingHttpExtractor, skippedAIExtractor, FallbackExtractor]
    [failingHttpExtractor, skippedAIExtractor]
    "https://supermarket.com/x"
    ⟨"https".data, "supermarket.com".data, none, "/x".data, [], none⟩
    rfl
    (by
      intro e he
      fin_cases he
      · exact Or.inr ⟨"Request failed", rfl⟩
      · exact Or.inl rfl)
    rfl

/-- Unfolding equation for the orchestrator loop on a non-empty
strategy list. -/
theorem extractGo_cons (url : String) (ex : Extractor) (rest : List Extractor)
    (last : Option String) :
    extractGo url (ex :: rest) last =
      if ex.canExtract url then
        match ex.extract url with
        | .ok result =>
          if hasGoodData result then
            .ok ⟨result, getExtractionMethod ex,
              calculateConfidence result (getExtractionMethod ex)⟩
          else extractGo url rest last
        | .error e => extractGo url rest (some e)
      else extractGo url rest last := rfl

/-- Membership is preserved by the stable priority insertion. -/
theorem mem_insertByPriority (a e : Extractor) (l : List Extractor) :
    a ∈ insertByPriority e l ↔ a = e ∨ a ∈ l := by
  induction l with
  | nil => simp [insertByPriority]
  | cons x xs ih =>
    unfold insertByPriority
    by_cases h : x.getPriority < e.getPriority
    · rw [if_pos h]
      simp only [List.mem_cons, ih]
      tauto
    · rw [if_neg h]
      simp only [List.mem_cons]

/-- Membership is preserved by the priority sort. -/
theorem mem_sortExtractors (a : Extractor) (l : List Extractor) :
    a ∈ sortExtractors l ↔ a ∈ l := by
  induction l with
  | nil => simp [sortExtractors]
  | cons x xs ih =>
    unfold sortExtractors
    rw [mem_insertByPriority]
    simp [ih]

/-- When no strategy of the list is accepted, the loop ends in the error
determined by the last thrown message, falling back to the carried last
error and then to the `No extractors available` error. -/
theorem extractGo_no_accept (url : String) :
    ∀ (es : List Extractor) (last : Option String),
      noAcceptedResult url es →
      extractGo url es last =
        match (thrownMessages url es).getLast? with
        | some m => .error (.strategy m)
        | none =>
          match last with
          | some m => .error (.strategy m)
          | none => .error .noExtractors := by
  intro es
  induction es with
  | nil =>
    intro last _
    cases last <;> rfl
  | cons ex rest ih =>
    intro last h
    have hex := fun hc r hr => h ex (List.mem_cons_self ex rest) hc r hr
    have hrest : noAcceptedResult url rest :=
      fun e he => h e (List.mem_cons_of_mem ex he)
    by_cases hc : ex.canExtract url
    · cases her : ex.extract url with
      | ok r =>
        have hg : hasGoodData r = false := hex hc r her
        have hstep : extractGo url (ex :: rest) last = extractGo url rest last := by
          rw [extractGo_cons, if_pos hc, her]
          simp [hg]
        have hthr : thrownMessages url (ex :: rest) = thrownMessages url rest := by
          simp [thrownMessages, hc, her]
        rw [hstep, hthr]
        exact ih last hrest
      | error m =>
        have hstep : extractGo url (ex :: rest) last = extractGo url rest (some m) := by
          simp [extractGo_cons, hc, her]
        have hthr : thrownMessages url (ex :: rest) = m :: thrownMessages url rest := by
          simp [thrownMessages, hc, her]
        rw [hstep, hthr, ih (some m) hrest]
        rw [show (m :: thrownMessages url rest) = [m] ++ thrownMessages url rest from rfl,
          List.getLast?_append]
        cases (thrownMessages url rest).getLast? <;> rfl
    · have hstep : extractGo url (ex :: rest) last = extractGo url rest last := by
        simp [extractGo_cons, hc]
      have hthr : thrownMessages url (ex :: rest) = thrownMessages url rest := by
        simp [thrownMessages, hc]
      rw [hstep, hthr]
      exact ih last hrest

/-- C7 amended: when no strategy is accepted, extract throws the last
recorded strategy error when one exists, and throws the
`No extractors available` error exactly when no strategy threw, which
includes the case where strategies ran but were rejected by the quality
gate. -/
theorem extract_last_error_characterization (es : List Extractor) (url : String)
    (hno : noAcceptedResult url es) :
    ExtractionService.extract es url =
      match (thrownMessages url (sortExtractors es)).getLast? with
      | some m => .error (.strategy m)
      | none => .error .noExtractors := by
  have hno' : noAcceptedResult url (sortExtractors es) :=
    fun e he => hno e ((mem_sortExtractors e es).mp he)
  unfold ExtractionService.extract
  rw [extractGo_no_accept url (sortExtractors es) none hno']

/-- C7 witness: on the singleton fallback pipeline with a short host,
the strategy runs without throwing, nothing is recorded, and extract
ends in the `No extractors available` error. -/
theorem extract_last_error_characterization_witness :
    noAcceptedResult "https://a.co/x" [FallbackExtractor] ∧
    ExtractionService.extract [FallbackExtractor] "https://a.co/x" =
      .error .noExtractors := by
  have hno : noAcceptedResult "https://a.co/x" [FallbackExtractor] := by
    intro e he hc r hr
    rw [List.mem_singleton] at he
    subst he
    have hok : FallbackExtractor.extract "https://a.co/x" = .ok (fallbackRecord "a.co") := rfl
    rw [hok] at hr
    injection hr with h2
    subst h2
    rfl
  exact ⟨hno, (extract_last_error_characterization [FallbackExtractor] "https://a.co/x" hno).trans rfl⟩

/-- Unfolding equation for the retry loop on a non-empty attempt
list. -/
theorem fetchGo_cons (tryAttempt : Nat → Except String UrlPreview) (a : Nat) (rest : List Nat)
    (last : Option String) (n : Nat) (ds : List Nat) :
    fetchGo tryAttempt (a :: rest) last n ds =
      match tryAttempt a with
      | .ok preview => ⟨.ok preview, n + 1, ds⟩
      | .error e =>
        if a < MAX_RETRIES then
          fetchGo tryAttempt rest (some e) (n + 1) (ds ++ [RETRY_DELAY * a])
        else fetchGo tryAttempt rest (some e) (n + 1) ds := rfl

/-- C8: fetchPreview on a URL invalid after sanitization throws the
non-retryable validation error with zero request attempts; on three
consecutive request failures it performs exactly 3 attempts with the
strictly increasing delays 1000 and 2000 between them and throws the
retryable network error whose message extends the final underlying
error's message. -/
theorem fetchPreview_validation_and_retry (tryAttempt : Nat → Except String UrlPreview)
    (url : String) (m1 m2 m3 : String) :
    (isValidUrl (sanitizeUrl url) = false →
      fetchPreview tryAttempt url =
        ⟨.error ⟨ErrorType.validation, "Invalid URL provided", false⟩, 0, []⟩) ∧
    (isValidUrl (sanitizeUrl url) = true →
      tryAttempt 1 = .error m1 → tryAttempt 2 = .error m2 → tryAttempt 3 = .error m3 →
      fetchPreview tryAttempt url =
        ⟨.error ⟨ErrorType.network, "Failed to fetch preview after 3 attempts: " ++ m3, true⟩,
          3, [1000, 2000]⟩ ∧
      (1000 : Nat) < 2000 ∧
      ∃ pre, "Failed to fetch preview after 3 attempts: " ++ m3 = pre ++ m3) := by
  constructor
  · intro hval
    simp [fetchPreview, hval]
  · intro hval h1 h2 h3
    refine ⟨?_, by norm_num, ⟨"Failed to fetch preview after 3 attempts: ", rfl⟩⟩
    have s1 : fetchGo tryAttempt [1, 2, 3] none 0 [] =
        fetchGo tryAttempt [2, 3] (some m1) 1 [1000] := by
      rw [fetchGo_cons, h1]
      exact rfl
    have s2 : fetchGo tryAttempt [2, 3] (some m1) 1 [1000] =
        fetchGo tryAttempt [3] (some m2) 2 [1000, 2000] := by
      rw [fetchGo_cons, h2]
      exact rfl
    have s3 : fetchGo tryAttempt [3] (some m2) 2 [1000, 2000] =
        fetchGo tryAttempt [] (some m3) 3 [1000, 2000] := by
      rw [fetchGo_cons, h3]
      exact rfl
    have s4 : fetchGo tryAttempt [] (some m3) 3 [1000, 2000] =
        ⟨.error ⟨ErrorType.network, "Failed to fetch preview after 3 attempts: " ++ m3, true⟩,
          3, [1000, 2000]⟩ := rfl
    show fetchPreview tryAttempt url = _
    unfold fetchPreview
    rw [if_pos hval]
    exact (s1.trans (s2.trans (s3.trans s4)))

/-- C8 witness: both branches instantiated, on a URL that stays invalid
after sanitization and on a valid URL with an always-failing request
oracle. -/
theorem fetchPreview_validation_and_retry_witness :
    fetchPreview (fun _ => .error "Network Error") "not a url" =
      ⟨.error ⟨ErrorType.validation, "Invalid URL provided", false⟩, 0, []⟩ ∧
    fetchPreview (fun _ => .error "Network Error") "example.com" =
      ⟨.error ⟨ErrorType.network,
        "Failed to fetch preview after 3 attempts: " ++ "Network Error", true⟩,
        3, [1000, 2000]⟩ :=
  ⟨(fetchPreview_validation_and_retry (fun _ => .error "Network Error") "not a url"
      "" "" "").1 (by decide),
   ((fetchPreview_validation_and_retry (fun _ => .error "Network Error") "example.com"
      "Network Error" "Network Error" "Network Error").2 (by decide) rfl rfl rfl).1⟩

/-- C5 amended: on a store satisfying the no-duplicate invariant,
addItem on a duplicate normalizedUrl throws the duplicate error (which
the store classifies as a non-retryable Duplicate) and leaves the
stored list unchanged, so the size does not increase; and both addItem
and deleteItem preserve the invariant. -/
theorem addItem_deleteItem_preserve_dedup (items : List WishlistItem)
    (item : NewWishlistItem) (newId now delId : String)
    (hnd : noDupNormalizedUrl items) :
    (items.any (fun ex => decide (ex.normalizedUrl = item.normalizedUrl)) = true →
      DatabaseService.addItem items item newId now = .error "Item already exists in wishlist" ∧
      DatabaseService.addItemStore items item newId now = items ∧
      classifyAddError "Item already exists in wishlist" =
        ⟨ErrorType.duplicate, "This item is already in your wishlist", false⟩) ∧
    noDupNormalizedUrl (DatabaseService.addItemStore items item newId now) ∧
    noDupNormalizedUrl (DatabaseService.deleteItem items delId).2 := by
  refine ⟨?_, ?_, ?_⟩
  · intro hdup
    have herr : DatabaseService.addItem items item newId now =
        .error "Item already exists in wishlist" := by
      unfold DatabaseService.addItem
      rw [if_pos hdup]
    refine ⟨herr, ?_, by decide⟩
    unfold DatabaseService.addItemStore
    rw [herr]
  · by_cases hdup : items.any (fun ex => decide (ex.normalizedUrl = item.normalizedUrl)) = true
    · have herr : DatabaseService.addItem items item newId now =
          .error "Item already exists in wishlist" := by
        unfold DatabaseService.addItem
        rw [if_pos hdup]
      unfold DatabaseService.addItemStore
      rw [herr]
      exact hnd
    · have hok : DatabaseService.addItemStore items item newId now =
          items ++ [⟨newId, item.title, item.imageUrl, item.price, item.sourceDomain,
            item.originalUrl, item.normalizedUrl, now, now⟩] := by
        unfold DatabaseService.addItemStore DatabaseService.addItem
        rw [if_neg hdup]
      rw [hok]
      unfold noDupNormalizedUrl
      rw [List.map_append]
      apply List.Nodup.append hnd (List.nodup_singleton _)
      intro a ha hb
      simp only [List.map_singleton, List.mem_singleton] at hb
      subst hb
      rw [List.mem_map] at ha
      obtain ⟨ex, hex, hurl⟩ := ha
      rw [List.any_eq_true] at hdup
      exact hdup ⟨ex, hex, by simp [hurl]⟩
  · unfold DatabaseService.deleteItem
    by_cases hlen : (items.filter (fun it => decide (it.id ≠ delId))).length = items.length
    · rw [if_pos hlen]
      exact hnd
    · rw [if_neg hlen]
      exact List.Nodup.sublist ((List.filter_sublist items).map _) hnd

/-- C5 witness: the amended statement instantiated on a one-element
store and a duplicate insertion. -/
theorem addItem_deleteItem_preserve_dedup_witness :
    ((([⟨"id1", "A", none, none, "a.com", "https://a.com", "https://a.com", "t0", "t0"⟩] :
        List WishlistItem).any
          (fun ex => decide (ex.normalizedUrl = "https://a.com")) = true →
      DatabaseService.addItem
        [⟨"id1", "A", none, none, "a.com", "https://a.com", "https://a.com", "t0", "t0"⟩]
        ⟨"B", none, none, "a.com", "https://a.com", "https://a.com"⟩ "id2" "t1" =
          .error "Item already exists in wishlist" ∧
      DatabaseService.addItemStore
        [⟨"id1", "A", none, none, "a.com", "https://a.com", "https://a.com", "t0", "t0"⟩]
        ⟨"B", none, none, "a.com", "https://a.com", "https://a.com"⟩ "id2" "t1" =
          [⟨"id1", "A", none, none, "a.com", "https://a.com", "https://a.com", "t0", "t0"⟩] ∧
      classifyAddError "Item already exists in wishlist" =
        ⟨ErrorType.duplicate, "This item is already in your wishlist", false⟩) ∧
    noDupNormalizedUrl (DatabaseService.addItemStore
      [⟨"id1", "A", none, none, "a.com", "https://a.com", "https://a.com", "t0", "t0"⟩]
      ⟨"B", none, none, "a.com", "https://a.com", "https://a.com"⟩ "id2" "t1") ∧
    noDupNormalizedUrl (DatabaseService.deleteItem
      [⟨"id1", "A", none, none, "a.com", "https://a.com", "https://a.com", "t0", "t0"⟩]
      "id1").2) :=
  addItem_deleteItem_preserve_dedup
    [⟨"id1", "A", none, none, "a.com", "https://a.com", "https://a.com", "t0", "t0"⟩]
    ⟨"B", none, none, "a.com", "https://a.com", "https://a.com"⟩ "id2" "t1" "id1" (by decide)

/-- A string without a colon has no scheme, so the URL parser rejects
it. -/
theorem parseUrlChars_eq_none_of_no_colon (l : List Char) (h : ∀ c ∈ l, c ≠ ':') :
    parseUrlChars l = none := by
  have hd : l.dropWhile (fun c => decide (c ≠ ':')) = [] := by
    rw [List.dropWhile_eq_nil_iff]
    intro c hc
    simpa using h c hc
  have hs : splitScheme l = none := by
    unfold splitScheme
    rw [hd]
  unfold parseUrlChars
  rw [hs]

/-- Trimming only removes characters. -/
theorem mem_of_mem_trimChars {c : Char} {l : List Char} (h : c ∈ trimChars l) : c ∈ l := by
  unfold trimChars at h
  rw [List.mem_reverse] at h
  have h2 := (List.dropWhile_sublist (l := (l.dropWhile isJsWhitespace).reverse)
    (p := isJsWhitespace)).mem h
  rw [List.mem_reverse] at h2
  exact (List.dropWhile_sublist (l := l) (p := isJsWhitespace)).mem h2

/-- A colon-free string cannot start with an http or https scheme. -/
theorem startsHttpScheme_eq_false (l : List Char) (h : ∀ c ∈ l, c ≠ ':') :
    startsHttpScheme l = false := by
  unfold startsHttpScheme
  rw [Bool.or_eq_false_iff]
  constructor
  · rw [decide_eq_false_iff_not]
    intro heq
    have hc : ':' ∈ l.take 7 := by
      rw [heq]
      decide
    exact h ':' (List.take_subset 7 l hc) rfl
  · rw [decide_eq_false_iff_not]
    intro heq
    have hc : ':' ∈ l.take 8 := by
      rw [heq]
      decide
    exact h ':' (List.take_subset 8 l hc) rfl

/-- C6 amended: on a schemeless URL string (no colon at all),
normalizeUrl fails with the non-retryable validation error; assuming
https for schemeless input is the job of sanitizeUrl, which prefixes
`https://` to the trimmed string. -/
theorem normalizeUrl_schemeless_behavior (s : String) (h : ∀ c ∈ s.data, c ≠ ':') :
    normalizeUrl s = .error ⟨ErrorType.validation, "Invalid URL format", false⟩ ∧
    sanitizeUrl s = String.mk ("https://".data ++ trimChars s.data) := by
  constructor
  · unfold normalizeUrl
    rw [parseUrlChars_eq_none_of_no_colon s.data h]
  · unfold sanitizeUrl
    have hf : startsHttpScheme (trimChars s.data) = false :=
      startsHttpScheme_eq_false _ (fun c hc => h c (mem_of_mem_trimChars hc))
    rw [if_neg (by simp [hf])]

/-- C6 witness: the schemeless behavior at the concrete input
`example.com/path`. -/
theorem normalizeUrl_schemeless_behavior_witness :
    (∀ c ∈ "example.com/path".data, c ≠ ':') ∧
    normalizeUrl "example.com/path" =
      .error ⟨ErrorType.validation, "Invalid URL format", false⟩ ∧
    sanitizeUrl "example.com/path" =
      String.mk ("https://".data ++ trimChars "example.com/path".data) :=
  ⟨by decide, normalizeUrl_schemeless_behavior "example.com/path" (by decide)⟩

/-- takeWhile over an append whose left part satisfies the predicate
and whose right part starts by violating it returns the left part. -/
theorem takeWhile_append_eq (p : Char → Bool) (xs ys : List Char)
    (h1 : ∀ c ∈ xs, p c = true)
    (h2 : ∀ d t, ys = d :: t → p d = false) :
    (xs ++ ys).takeWhile p = xs := by
  induction xs with
  | nil =>
    cases hy : ys with
    | nil => rfl
    | cons d t =>
      rw [List.nil_append, List.takeWhile_cons, h2 d t hy]
      simp
  | cons x xs ih =>
    have hx : p x = true := h1 x (List.mem_cons_self x xs)
    rw [List.cons_append, List.takeWhile_cons, hx]
    simp only [if_true]
    rw [ih (fun c hc => h1 c (List.mem_cons_of_mem x hc))]

/-- dropWhile counterpart of `takeWhile_append_eq`. -/
theorem dropWhile_append_eq (p : Char → Bool) (xs ys : List Char)
    (h1 : ∀ c ∈ xs, p c = true)
    (h2 : ∀ d t, ys = d :: t → p d = false) :
    (xs ++ ys).dropWhile p = ys := by
  induction xs with
  | nil =>
    cases hy : ys with
    | nil => rfl
    | cons d t =>
      rw [List.nil_append, List.dropWhile_cons, h2 d t hy]
      simp
  | cons x xs ih =>
    have hx : p x = true := h1 x (List.mem_cons_self x xs)
    rw [List.cons_append, List.dropWhile_cons, hx]
    simp only [if_true]
    exact ih (fun c hc => h1 c (List.mem_cons_of_mem x hc))

/-- takeWhile keeps a list all of whose elements satisfy the
predicate. -/
theorem takeWhile_eq_self (p : Char → Bool) (l : List Char) (h : ∀ c ∈ l, p c = true) :
    l.takeWhile p = l := by
  have := takeWhile_append_eq p l [] h (by intro d t ht; cases ht)
  simpa using this

/-- dropWhile exhausts a list all of whose elements satisfy the
predicate. -/
theorem dropWhile_eq_nil (p : Char → Bool) (l : List Char) (h : ∀ c ∈ l, p c = true) :
    l.dropWhile p = [] := by
  rw [List.dropWhile_eq_nil_iff]
  exact h

/-- The head surviving a dropWhile violates the predicate. -/
theorem dropWhile_head_not (p : Char → Bool) :
    ∀ (l : List Char) (d : Char) (t : List Char), l.dropWhile p = d :: t → p d = false := by
  intro l
  induction l with
  | nil =>
    intro d t h
    simp at h
  | cons c cs ih =>
    intro d t h
    rw [List.dropWhile_cons] at h
    by_cases hc : p c = true
    · rw [if_pos hc] at h
      exact ih d t h
    · rw [if_neg hc] at h
      injection h with h1 _
      subst h1
      exact Bool.not_eq_true _ ▸ Bool.eq_false_iff.mpr (fun hh => hc hh)

/-- Character arithmetic helper for the ASCII lowercasing model. -/
theorem char_toNat_ofNat_small {n : Nat} (h : n ≤ 1000) : (Char.ofNat n).toNat = n := by
  have hv : n.isValidChar := Or.inl (by omega)
  simp [Char.ofNat, hv, Char.ofNatAux, Char.toNat, UInt32.toNat, BitVec.toNat_ofNatLt]

/-- ASCII lowercasing is idempotent. -/
theorem lowerChar_idem (c : Char) : lowerChar (lowerChar c) = lowerChar c := by
  unfold lowerChar
  by_cases h : 65 ≤ c.toNat ∧ c.toNat ≤ 90
  · rw [if_pos h]
    have ht : (Char.ofNat (c.toNat + 32)).toNat = c.toNat + 32 :=
      char_toNat_ofNat_small (by omega)
    rw [if_neg (by omega)]
  · rw [if_neg h, if_neg h]

/-- Lowercasing a map-lowercased list is the identity. -/
theorem map_lowerChar_idem (l : List Char) :
    (l.map lowerChar).map lowerChar = l.map lowerChar := by
  rw [List.map_map]
  exact List.map_congr_left (fun c _ => lowerChar_idem c)

/-- Lowercasing preserves admissibility as a hostname character. -/
theorem isHostChar_lowerChar {c : Char} (h : isHostChar c = true) :
    isHostChar (lowerChar c) = true := by
  unfold lowerChar
  by_cases hc : 65 ≤ c.toNat ∧ c.toNat ≤ 90
  · rw [if_pos hc]
    have ht : (Char.ofNat (c.toNat + 32)).toNat = c.toNat + 32 :=
      char_toNat_ofNat_small (by omega)
    have hrange : 97 ≤ (Char.ofNat (c.toNat + 32)).toNat ∧
        (Char.ofNat (c.toNat + 32)).toNat ≤ 122 := by omega
    unfold isHostChar forbiddenHostChar
    rw [Bool.not_eq_true']
    rw [decide_eq_false_iff_not]
    intro hor
    rcases hor with h1|h1|h1|h1|h1|h1|h1|h1|h1|h1|h1|h1|h1|h1|h1|h1 <;>
      exact absurd (h1 ▸ hrange) (by decide)
  · rw [if_neg hc]
    exact h

/-- splitAmp leaves an ampersand-free list whole. -/
theorem splitAmp_no_amp (l : List Char) (h : ∀ c ∈ l, c ≠ '&') : splitAmp l = [l] := by
  induction l with
  | nil => rfl
  | cons c rest ih =>
    unfold splitAmp
    rw [if_neg (h c (List.mem_cons_self c rest))]
    rw [ih (fun d hd => h d (List.mem_cons_of_mem c hd))]

/-- splitAmp splits at the first ampersand after an ampersand-free
block. -/
theorem splitAmp_append_amp (x r : List Char) (hx : ∀ c ∈ x, c ≠ '&') :
    splitAmp (x ++ '&' :: r) = x :: splitAmp r := by
  induction x with
  | nil =>
    show splitAmp ('&' :: r) = [] :: splitAmp r
    simp [splitAmp]
  | cons c x2 ih =>
    have hc : c ≠ '&' := hx c (List.mem_cons_self c x2)
    show splitAmp (c :: (x2 ++ '&' :: r)) = (c :: x2) :: splitAmp r
    simp [splitAmp, hc, ih (fun d hd => hx d (List.mem_cons_of_mem c hd))]

/-- The parts produced by splitAmp contain no ampersand. -/
theorem mem_splitAmp_no_amp :
    ∀ (l : List Char), ∀ part ∈ splitAmp l, ∀ c ∈ part, c ≠ '&' := by
  intro l
  induction l with
  | nil =>
    intro part hp c hc
    simp [splitAmp] at hp
    subst hp
    cases hc
  | cons a rest ih =>
    intro part hp c hc
    unfold splitAmp at hp
    by_cases ha : a = '&'
    · rw [if_pos ha] at hp
      rcases List.mem_cons.mp hp with rfl | hp2
      · cases hc
      · exact ih part hp2 c hc
    · rw [if_neg ha] at hp
      cases hs : splitAmp rest with
      | nil =>
        rw [hs] at hp
        rcases List.mem_cons.mp hp with rfl | hp2
        · rcases List.mem_cons.mp hc with rfl | hc2
          · exact ha
          · cases hc2
        · cases hp2
      | cons g gs =>
        rw [hs] at hp
        rcases List.mem_cons.mp hp with rfl | hp2
        · rcases List.mem_cons.mp hc with rfl | hc2
          · exact ha
          · exact ih g (hs ▸ List.mem_cons_self g gs) c hc2
        · exact ih part (hs ▸ List.mem_cons_of_mem g hp2) c hc

/-- The parts produced by splitAmp draw their characters from the
input. -/
theorem mem_splitAmp_subset :
    ∀ (l : List Char), ∀ part ∈ splitAmp l, ∀ c ∈ part, c ∈ l := by
  intro l
  induction l with
  | nil =>
    intro part hp c hc
    simp [splitAmp] at hp
    subst hp
    cases hc
  | cons a rest ih =>
    intro part hp c hc
    unfold splitAmp at hp
    by_cases ha : a = '&'
    · rw [if_pos ha] at hp
      rcases List.mem_cons.mp hp with rfl | hp2
      · cases hc
      · exact List.mem_cons_of_mem a (ih part hp2 c hc)
    · rw [if_neg ha] at hp
      cases hs : splitAmp rest with
      | nil =>
        rw [hs] at hp
        rcases List.mem_cons.mp hp with rfl | hp2
        · rcases List.mem_cons.mp hc with rfl | hc2
          · exact List.mem_cons_self c rest
          · cases hc2
        · cases hp2
      | cons g gs =>
        rw [hs] at hp
        rcases List.mem_cons.mp hp with rfl | hp2
        · rcases List.mem_cons.mp hc with rfl | hc2
          · exact List.mem_cons_self c rest
          · exact List.mem_cons_of_mem a
              (ih g (hs ▸ List.mem_cons_self g gs) c hc2)
        · exact List.mem_cons_of_mem a
            (ih part (hs ▸ List.mem_cons_of_mem g hp2) c hc)

/-- Parsing a serialized query pair recovers it when the key is free of
equals signs. -/
theorem parsePair_serializePair (kv : List Char × List Char)
    (hk : ∀ c ∈ kv.1, c ≠ '=') :
    parsePairChars (serializePairChars kv) = kv := by
  obtain ⟨k, v⟩ := kv
  unfold parsePairChars serializePairChars
  simp only
  rw [takeWhile_append_eq _ k ('=' :: v)
        (by intro c hc; simpa using hk c hc)
        (by intro d t ht; injection ht with h1 _; subst h1; simp),
      dropWhile_append_eq _ k ('=' :: v)
        (by intro c hc; simpa using hk c hc)
        (by intro d t ht; injection ht with h1 _; subst h1; simp)]
  rfl

/-- splitAmp inverts joinAmp on a non-empty list of ampersand-free
parts. -/
theorem splitAmp_joinAmp (parts : List (List Char)) (hne : parts ≠ [])
    (h : ∀ part ∈ parts, ∀ c ∈ part, c ≠ '&') :
    splitAmp (joinAmp parts) = parts := by
  induction parts with
  | nil => exact absurd rfl hne
  | cons x xs ih =>
    cases xs with
    | nil =>
      show splitAmp (joinAmp [x]) = [x]
      exact splitAmp_no_amp x (h x (List.mem_cons_self x []))
    | cons y ys =>
      show splitAmp (joinAmp (x :: y :: ys)) = x :: y :: ys
      have hj : joinAmp (x :: y :: ys) = x ++ '&' :: joinAmp (y :: ys) := rfl
      rw [hj, splitAmp_append_amp x _ (h x (List.mem_cons_self x (y :: ys))),
        ih (by simp) (fun part hp => h part (List.mem_cons_of_mem x hp))]

/-- Characters of a joined query come from a part or are
ampersands. -/
theorem mem_joinAmp {c : Char} :
    ∀ (parts : List (List Char)), c ∈ joinAmp parts →
      c = '&' ∨ ∃ part ∈ parts, c ∈ part := by
  intro parts
  induction parts with
  | nil =>
    intro h
    cases h
  | cons x xs ih =>
    cases xs with
    | nil =>
      intro h
      exact Or.inr ⟨x, List.mem_cons_self x [], h⟩
    | cons y ys =>
      intro h
      have hj : joinAmp (x :: y :: ys) = x ++ '&' :: joinAmp (y :: ys) := rfl
      rw [hj] at h
      rcases List.mem_append.mp h with hx | hr
      · exact Or.inr ⟨x, List.mem_cons_self x (y :: ys), hx⟩
      · rcases List.mem_cons.mp hr with rfl | hr2
        · exact Or.inl rfl
        · rcases ih hr2 with h1 | ⟨part, hp, hcp⟩
          · exact Or.inl h1
          · exact Or.inr ⟨part, List.mem_cons_of_mem x hp, hcp⟩

/-- Characters of a serialized pair are its key, an equals sign, or its
value. -/
theorem mem_serializePairChars {c : Char} (kv : List Char × List Char)
    (h : c ∈ serializePairChars kv) :
    c ∈ kv.1 ∨ c = '=' ∨ c ∈ kv.2 := by
  unfold serializePairChars at h
  rcases List.mem_append.mp h with h1 | h2
  · exact Or.inl h1
  · rcases List.mem_cons.mp h2 with rfl | h3
    · exact Or.inr (Or.inl rfl)
    · exact Or.inr (Or.inr h3)

/-- An admissible hostname character is an authority character. -/
theorem isAuthorityChar_of_isHostChar {c : Char} (h : isHostChar c = true) :
    isAuthorityChar c = true := by
  unfold isAuthorityChar
  rw [decide_eq_true_eq]
  refine ⟨?_, ?_, ?_⟩ <;> intro h2 <;> rw [h2] at h <;> exact absurd h (by decide)

/-- A digit is an authority character. -/
theorem isAuthorityChar_of_isDigit {c : Char} (h : c.isDigit = true) :
    isAuthorityChar c = true := by
  unfold isAuthorityChar
  rw [decide_eq_true_eq]
  refine ⟨?_, ?_, ?_⟩ <;> intro h2 <;> rw [h2] at h <;> exact absurd h (by decide)

/-- An admissible hostname character is not a colon. -/
theorem ne_colon_of_isHostChar {c : Char} (h : isHostChar c = true) : c ≠ ':' := by
  intro h2
  rw [h2] at h
  exact absurd h (by decide)

/-- The scheme splitter recovers the https prefix. -/
theorem splitScheme_https (A : List Char) :
    splitScheme ("https".data ++ ':' :: '/' :: '/' :: A) = some ("https".data, A) := by
  unfold splitScheme
  rw [takeWhile_append_eq _ _ _ (by decide)
        (by intro d t ht; injection ht with h1 _; subst h1; decide),
      dropWhile_append_eq _ _ _ (by decide)
        (by intro d t ht; injection ht with h1 _; subst h1; decide)]
  rfl

/-- The host-port splitter recovers hostname and port from their
serialization. -/
theorem splitHostPort_roundtrip (hostname : List Char) (port : Option (List Char))
    (hhost : ∀ c ∈ hostname, isHostChar c = true)
    (hport : ∀ ds, port = some ds → ds ≠ [] ∧ ∀ c ∈ ds, c.isDigit = true) :
    splitHostPort (hostname ++ serializePortChars port) = some (hostname, port) := by
  have h1 : ∀ c ∈ hostname, (fun c => decide (c ≠ ':')) c = true := by
    intro c hc
    simpa using ne_colon_of_isHostChar (hhost c hc)
  have h2 : ∀ d t, serializePortChars port = d :: t → (fun c => decide (c ≠ ':')) d = false := by
    intro d t ht
    cases port with
    | none => cases ht
    | some ds =>
      injection ht with hd _
      subst hd
      decide
  unfold splitHostPort
  rw [takeWhile_append_eq _ _ _ h1 h2, dropWhile_append_eq _ _ _ h1 h2]
  cases port with
  | none => rfl
  | some ds =>
    obtain ⟨hne, hdig⟩ := hport ds rfl
    show (match (':' :: ds : List Char) with
      | [] => some (hostname, none)
      | ':' :: ds =>
        if ds = [] then some (hostname, none)
        else if ds.all Char.isDigit then some (hostname, some ds) else none
      | _ => none) = some (hostname, some ds)
    rw [show (match (':' :: ds : List Char) with
      | [] => some (hostname, none)
      | ':' :: ds =>
        if ds = [] then some (hostname, none)
        else if ds.all Char.isDigit then some (hostname, some ds) else none
      | _ => none) =
        (if ds = [] then some (hostname, none)
         else if ds.all Char.isDigit then some (hostname, some ds) else none) from rfl]
    rw [if_neg hne, if_pos (List.all_eq_true.mpr (fun c hc => hdig c hc))]

/-- The serialized path-and-query region starts by violating the
authority predicate, when non-empty. -/
theorem tail_head_not_authority (pathname : List Char)
    (query : List (List Char × List Char))
    (hpath0 : pathname = [] ∨ ∃ t, pathname = '/' :: t) :
    ∀ d t, (pathname ++ serializeQueryChars query) = d :: t →
      isAuthorityChar d = false := by
  intro d t ht
  rcases hpath0 with hp0 | ⟨t2, hp2⟩
  · rw [hp0, List.nil_append] at ht
    cases hq : query with
    | nil =>
      rw [hq] at ht
      cases ht
    | cons kv qs =>
      rw [hq] at ht
      have hsq : serializeQueryChars (kv :: qs) =
          '?' :: joinAmp ((kv :: qs).map serializePairChars) := rfl
      rw [hsq] at ht
      injection ht with h1 _
      subst h1
      decide
  · rw [hp2, List.cons_append] at ht
    injection ht with h1 _
    subst h1
    decide

/-- The path splitter recovers the path in front of a serialized
query. -/
theorem splitPath_roundtrip (pathname : List Char)
    (query : List (List Char × List Char))
    (hpathc : ∀ c ∈ pathname, c ≠ '?' ∧ c ≠ '#') :
    (pathname ++ serializeQueryChars query).takeWhile isPathChar = pathname ∧
    (pathname ++ serializeQueryChars query).dropWhile isPathChar =
      serializeQueryChars query := by
  have h1 : ∀ c ∈ pathname, isPathChar c = true := by
    intro c hc
    unfold isPathChar
    rw [decide_eq_true_eq]
    exact hpathc c hc
  have h2 : ∀ d t, serializeQueryChars query = d :: t → isPathChar d = false := by
    intro d t ht
    cases hq : query with
    | nil =>
      rw [hq] at ht
      cases ht
    | cons kv qs =>
      rw [hq] at ht
      have hsq : serializeQueryChars (kv :: qs) =
          '?' :: joinAmp ((kv :: qs).map serializePairChars) := rfl
      rw [hsq] at ht
      injection ht with hd _
      subst hd
      decide
  exact ⟨takeWhile_append_eq _ _ _ h1 h2, dropWhile_append_eq _ _ _ h1 h2⟩

/-- parseQueryChars on a non-empty raw query is the split-and-parse
composite. -/
theorem parseQueryChars_ne_nil (l : List Char) (h : l ≠ []) :
    parseQueryChars l = (splitAmp l).map parsePairChars := by
  cases l with
  | nil => exact absurd rfl h
  | cons a as => rfl

/-- The https scheme is lowercase already. -/
theorem map_lowerChar_https : "https".data.map lowerChar = "https".data := by decide

/-- A serialized non-empty query contains no hash sign and parses back
to the original pair list. -/
theorem query_roundtrip (query : List (List Char × List Char))
    (hquery : ∀ kv ∈ query,
      (∀ c ∈ kv.1, c ≠ '&' ∧ c ≠ '=' ∧ c ≠ '#') ∧
      (∀ c ∈ kv.2, c ≠ '&' ∧ c ≠ '#'))
    (hne : query ≠ []) :
    (∀ c ∈ joinAmp (query.map serializePairChars), c ≠ '#') ∧
    parseQueryChars (joinAmp (query.map serializePairChars)) = query := by
  have hparts : ∀ part ∈ query.map serializePairChars, ∀ c ∈ part, c ≠ '&' := by
    intro part hp c hc
    rw [List.mem_map] at hp
    obtain ⟨kv, hkv, hser⟩ := hp
    subst hser
    rcases mem_serializePairChars kv hc with h1 | h2 | h3
    · exact ((hquery kv hkv).1 c h1).1
    · intro hamp
      rw [h2] at hamp
      cases hamp
    · exact ((hquery kv hkv).2 c h3).1
  constructor
  · intro c hc
    rcases mem_joinAmp _ hc with rfl | ⟨part, hp, hcp⟩
    · intro h2
      cases h2
    · rw [List.mem_map] at hp
      obtain ⟨kv, hkv, hser⟩ := hp
      subst hser
      rcases mem_serializePairChars kv hcp with h1 | h2 | h3
      · exact ((hquery kv hkv).1 c h1).2.2
      · intro h4
        rw [h2] at h4
        cases h4
      · exact ((hquery kv hkv).2 c h3).2
  · have hnej : joinAmp (query.map serializePairChars) ≠ [] := by
      cases hq : query with
      | nil => exact absurd hq hne
      | cons kv qs =>
        cases qs with
        | nil =>
          show joinAmp [serializePairChars kv] ≠ []
          show serializePairChars kv ≠ []
          unfold serializePairChars
          simp
        | cons kv2 qs2 =>
          show serializePairChars kv ++ '&' ::
            joinAmp ((kv2 :: qs2).map serializePairChars) ≠ []
          simp [serializePairChars]
    rw [parseQueryChars_ne_nil _ hnej,
      splitAmp_joinAmp (query.map serializePairChars) (by simpa using hne) hparts,
      List.map_map]
    have : ∀ kv ∈ query, (parsePairChars ∘ serializePairChars) kv = kv := by
      intro kv hkv
      exact parsePair_serializePair kv (fun c hc => ((hquery kv hkv).1 c hc).2.1)
    rw [List.map_congr_left this]
    exact List.map_id' query

/-- The parser inverts the serializer on well-formed parsed URLs. -/
theorem parse_serialize (p : ParsedUrl) (hw : WellFormedUrl p) :
    parseUrlChars (serializeUrlChars p) = some p := by
  obtain ⟨protocol, hostname, port, pathname, query, hash⟩ := p
  obtain ⟨hproto, hne, hhost, hport, hpath0, hpathc, hquery, hhash⟩ := hw
  simp only at hproto hne hhost hport hpath0 hpathc hquery hhash
  subst hproto
  subst hhash
  have hser : serializeUrlChars ⟨"https".data, hostname, port, pathname, query, none⟩ =
      "https".data ++ ':' :: '/' :: '/' ::
        ((hostname ++ serializePortChars port) ++
          (pathname ++ serializeQueryChars query)) := by
    unfold serializeUrlChars serializeHashChars
    simp [List.append_assoc]
  rw [hser]
  unfold parseUrlChars
  rw [splitScheme_https]
  simp only []
  have hALL : ∀ c ∈ hostname ++ serializePortChars port, isAuthorityChar c = true := by
    intro c hc
    rcases List.mem_append.mp hc with h1 | h2
    · exact isAuthorityChar_of_isHostChar (hhost c h1)
    · cases hp : port with
      | none =>
        rw [hp] at h2
        cases h2
      | some ds =>
        rw [hp] at h2
        rcases List.mem_cons.mp h2 with rfl | h3
        · decide
        · exact isAuthorityChar_of_isDigit ((hport ds hp).2 c h3)
  have hTail := tail_head_not_authority pathname query hpath0
  rw [takeWhile_append_eq isAuthorityChar _ _ hALL hTail,
    dropWhile_append_eq isAuthorityChar _ _ hALL hTail,
    splitHostPort_roundtrip hostname port hhost hport]
  simp only []
  rw [if_pos ⟨hne, List.all_eq_true.mpr (fun c hc => hhost c hc)⟩]
  obtain ⟨hptake, hpdrop⟩ := splitPath_roundtrip pathname query hpathc
  rw [hptake, hpdrop]
  rcases query with _ | ⟨kv, qs⟩
  · rw [show serializeQueryChars ([] : List (List Char × List Char)) = [] from rfl]
    simp only []
    rw [map_lowerChar_https]
  · obtain ⟨hnohash, hparse⟩ := query_roundtrip (kv :: qs) hquery (by simp)
    rw [show serializeQueryChars (kv :: qs) =
      '?' :: joinAmp ((kv :: qs).map serializePairChars) from rfl]
    simp only []
    rw [takeWhile_eq_self _ _ (fun c hc => by simpa using hnohash c hc),
      dropWhile_eq_nil _ _ (fun c hc => by simpa using hnohash c hc), hparse]
    simp only []
    rw [map_lowerChar_https]

/-- Port facts recovered from a successful host-port split. -/
theorem splitHostPort_port_facts (auth host : List Char) (port : Option (List Char))
    (h : splitHostPort auth = some (host, port)) :
    ∀ ds, port = some ds → ds ≠ [] ∧ ∀ c ∈ ds, c.isDigit = true := by
  unfold splitHostPort at h
  split at h
  · injection h with h2
    injection h2 with _ h3
    subst h3
    intro ds h4
    cases h4
  · split at h
    · injection h with h2
      injection h2 with _ h3
      subst h3
      intro ds h4
      cases h4
    · split at h
      · injection h with h2
        injection h2 with _ h3
        subst h3
        intro ds2 h4
        injection h4 with h5
        subst h5
        refine ⟨by assumption, ?_⟩
        intro c hc
        exact List.all_eq_true.mp (by assumption) c hc
      · cases h
  · cases h

/-- Field facts of every pair produced by the query parser on a
hash-free raw query. -/
theorem parseQueryChars_facts (qraw : List Char) (hq : ∀ c ∈ qraw, c ≠ '#') :
    ∀ kv ∈ parseQueryChars qraw,
      (∀ c ∈ kv.1, c ≠ '&' ∧ c ≠ '=' ∧ c ≠ '#') ∧
      (∀ c ∈ kv.2, c ≠ '&' ∧ c ≠ '#') := by
  intro kv hkv
  rcases hql : qraw with _ | ⟨a, as⟩
  · rw [hql] at hkv
    cases hkv
  · rw [hql] at hkv
    rw [parseQueryChars_ne_nil _ (by simp)] at hkv
    rw [List.mem_map] at hkv
    obtain ⟨part, hpart, hkv2⟩ := hkv
    subst hkv2
    have hpartsub : ∀ c ∈ part, c ∈ qraw := by
      intro c hc
      rw [hql]
      exact mem_splitAmp_subset _ part hpart c hc
    have hpartamp : ∀ c ∈ part, c ≠ '&' := mem_splitAmp_no_amp _ part hpart
    unfold parsePairChars
    constructor
    · intro c hc
      simp only [] at hc
      have hcpart : c ∈ part := (List.takeWhile_sublist _).mem hc
      refine ⟨hpartamp c hcpart, ?_, hq c (hpartsub c hcpart)⟩
      have := List.mem_takeWhile_imp hc
      simpa using this
    · intro c hc
      simp only [] at hc
      have hcpart : c ∈ part :=
        (List.dropWhile_sublist _).mem ((List.drop_sublist 1 _).mem hc)
      exact ⟨hpartamp c hcpart, hq c (hpartsub c hcpart)⟩

/-- Component facts recovered from a successful URL parse. -/
theorem parseUrlChars_facts (l : List Char) (p : ParsedUrl)
    (h : parseUrlChars l = some p) :
    (∀ c ∈ p.hostname, isHostChar c = true) ∧
    (∀ ds, p.port = some ds → ds ≠ [] ∧ ∀ c ∈ ds, c.isDigit = true) ∧
    (p.pathname = [] ∨ ∃ t, p.pathname = '/' :: t) ∧
    (∀ c ∈ p.pathname, c ≠ '?' ∧ c ≠ '#') ∧
    (∀ kv ∈ p.query,
      (∀ c ∈ kv.1, c ≠ '&' ∧ c ≠ '=' ∧ c ≠ '#') ∧
      (∀ c ∈ kv.2, c ≠ '&' ∧ c ≠ '#')) := by
  unfold parseUrlChars at h
  cases hs : splitScheme l with
  | none =>
    rw [hs] at h
    cases h
  | some sr =>
    obtain ⟨scheme, rest⟩ := sr
    rw [hs] at h
    simp only [] at h
    cases hsp : splitHostPort (rest.takeWhile isAuthorityChar) with
    | none =>
      rw [hsp] at h
      cases h
    | some hostport =>
      obtain ⟨host, port⟩ := hostport
      rw [hsp] at h
      simp only [] at h
      by_cases hcond : host ≠ [] ∧ host.all isHostChar
      · rw [if_pos hcond] at h
        have hhostf : ∀ c ∈ host, isHostChar c = true :=
          fun c hc => List.all_eq_true.mp hcond.2 c hc
        have hportf := splitHostPort_port_facts _ host port hsp
        have hpathf : ∀ c ∈ (rest.dropWhile isAuthorityChar).takeWhile isPathChar,
            c ≠ '?' ∧ c ≠ '#' := by
          intro c hc
          have := List.mem_takeWhile_imp hc
          unfold isPathChar at this
          rw [decide_eq_true_eq] at this
          exact this
        have hpath0 : (rest.dropWhile isAuthorityChar).takeWhile isPathChar = [] ∨
            ∃ t, (rest.dropWhile isAuthorityChar).takeWhile isPathChar = '/' :: t := by
          rcases hr2 : rest.dropWhile isAuthorityChar with _ | ⟨d, t⟩
          · left
            rfl
          · have hd := dropWhile_head_not isAuthorityChar rest d t hr2
            unfold isAuthorityChar at hd
            rw [decide_eq_false_iff_not] at hd
            push_neg at hd
            by_cases hd1 : d = '/'
            · right
              subst hd1
              rw [List.takeWhile_cons]
              refine ⟨List.takeWhile isPathChar t, ?_⟩
              rw [show isPathChar '/' = true from rfl]
              simp
            · by_cases hdq : d = '?'
              · left
                subst hdq
                rw [List.takeWhile_cons]
                simp [isPathChar]
              · have hdh : d = '#' := hd hd1 hdq
                left
                subst hdh
                rw [List.takeWhile_cons]
                simp [isPathChar]
        rcases hr3 : (rest.dropWhile isAuthorityChar).dropWhile isPathChar
          with _ | ⟨d3, t3⟩
        · rw [hr3] at h
          injection h with h2
          subst h2
          simp only []
          exact ⟨hhostf, hportf, hpath0, hpathf, by intro kv hkv; cases hkv⟩
        · rw [hr3] at h
          have hd3 := dropWhile_head_not isPathChar _ d3 t3 hr3
          unfold isPathChar at hd3
          rw [decide_eq_false_iff_not] at hd3
          push_neg at hd3
          by_cases hq3 : d3 = '?'
          · subst hq3
            simp only [] at h
            injection h with h2
            subst h2
            simp only []
            refine ⟨hhostf, hportf, hpath0, hpathf, ?_⟩
            apply parseQueryChars_facts
            intro c hc
            have := List.mem_takeWhile_imp hc
            simpa using this
          · have hh3 : d3 = '#' := hd3 hq3
            subst hh3
            simp only [] at h
            injection h with h2
            subst h2
            simp only []
            exact ⟨hhostf, hportf, hpath0, hpathf, by intro kv hkv; cases hkv⟩
      · rw [if_neg hcond] at h
        cases h

/-- stripWww leaves a host without the prefix unchanged. -/
theorem stripWww_of_not_www (l : List Char) (h : startsWithWww l = false) :
    stripWww l = l := by
  unfold stripWww
  rw [if_neg (by simp [h])]

/-- stripWww drops four characters of a host with the prefix. -/
theorem stripWww_of_www (l : List Char) (h : startsWithWww l = true) :
    stripWww l = l.drop 4 := by
  unfold stripWww
  rw [if_pos h]

/-- Normalizing any successfully parsed URL yields a well-formed record,
provided the host survives the `www.` strip. -/
theorem normalizeParsedUrl_wf (l : List Char) (p : ParsedUrl)
    (h : parseUrlChars l = some p)
    (hne : (normalizeParsedUrl p).hostname ≠ []) :
    WellFormedUrl (normalizeParsedUrl p) := by
  obtain ⟨hhost, hport, hpath0, hpathc, hquery⟩ := parseUrlChars_facts l p h
  unfold WellFormedUrl
  refine ⟨rfl, hne, ?_, ?_, ?_, ?_, ?_, rfl⟩
  · intro c hc
    have hc0 : c ∈ stripWww (p.hostname.map lowerChar) := hc
    have hc2 : c ∈ p.hostname.map lowerChar := by
      by_cases hw : startsWithWww (p.hostname.map lowerChar) = true
      · rw [stripWww_of_www _ hw] at hc0
        exact (List.drop_sublist 4 _).mem hc0
      · rw [stripWww_of_not_www _ (by simpa using hw)] at hc0
        exact hc0
    rw [List.mem_map] at hc2
    obtain ⟨c2, hc2m, hc2e⟩ := hc2
    subst hc2e
    exact isHostChar_lowerChar (hhost c2 hc2m)
  · intro ds hds
    exact hport ds hds
  · exact hpath0
  · exact hpathc
  · intro kv hkv
    have hkv2 : kv ∈ p.query.filter (fun kv => !(UTM_PARAMS.contains kv.1)) := hkv
    exact hquery kv (List.mem_filter.mp hkv2).1

/-- Normalization is a fixed point on an already-normalized record
whose host does not again start with `www.`. -/
theorem normalizeParsedUrl_fixed (p : ParsedUrl)
    (hwww : startsWithWww (normalizeParsedUrl p).hostname = false) :
    normalizeParsedUrl (normalizeParsedUrl p) = normalizeParsedUrl p := by
  have hmap : (stripWww (p.hostname.map lowerChar)).map lowerChar =
      stripWww (p.hostname.map lowerChar) := by
    by_cases hw : startsWithWww (p.hostname.map lowerChar) = true
    · rw [stripWww_of_www _ hw, List.map_drop, map_lowerChar_idem]
    · rw [stripWww_of_not_www _ (by simpa using hw)]
      exact map_lowerChar_idem _
  have hwww2 : startsWithWww (stripWww (p.hostname.map lowerChar)) = false := hwww
  unfold normalizeParsedUrl
  congr 1
  · show stripWww ((stripWww (p.hostname.map lowerChar)).map lowerChar) =
      stripWww (p.hostname.map lowerChar)
    rw [hmap, stripWww_of_not_www _ hwww2]
  · exact List.filter_eq_self.mpr (fun kv hkv => (List.mem_filter.mp hkv).2)

/-- C4 amended: normalizeUrl is idempotent on every URL whose normalized
host is non-empty and does not again begin with `www.` and whose rebuilt
canonical form does not end with a slash. -/
theorem normalizeUrl_conditional_idempotent (u : String) (p : ParsedUrl)
    (hp : parseUrlChars u.data = some p)
    (hne : (normalizeParsedUrl p).hostname ≠ [])
    (hwww : startsWithWww (normalizeParsedUrl p).hostname = false)
    (hslash : (serializeUrlChars (normalizeParsedUrl p)).getLast? ≠ some '/') :
    ∃ v, normalizeUrl u = .ok v ∧ normalizeUrl v = .ok v := by
  have hwf : WellFormedUrl (normalizeParsedUrl p) := normalizeParsedUrl_wf u.data p hp hne
  have hstrip : stripTrailingSlash (serializeUrlChars (normalizeParsedUrl p)) =
      serializeUrlChars (normalizeParsedUrl p) := by
    unfold stripTrailingSlash
    rw [if_neg hslash]
  refine ⟨String.mk (serializeUrlChars (normalizeParsedUrl p)), ?_, ?_⟩
  · unfold normalizeUrl
    rw [hp]
    simp only []
    rw [hstrip]
  · unfold normalizeUrl
    rw [show (String.mk (serializeUrlChars (normalizeParsedUrl p))).data =
      serializeUrlChars (normalizeParsedUrl p) from rfl]
    rw [parse_serialize _ hwf]
    simp only []
    rw [normalizeParsedUrl_fixed p hwww, hstrip]

/-- C4 witness: conditional idempotence instantiated on the worked
Amazon example. -/
theorem normalizeUrl_conditional_idempotent_witness :
    parseUrlChars "https://www.amazon.com/product?utm_source=google&ref=123#section".data =
      some ⟨"https".data, "www.amazon.com".data, none, "/product".data,
        [("utm_source".data, "google".data), ("ref".data, "123".data)],
        some "section".data⟩ ∧
    ∃ v, normalizeUrl "https://www.amazon.com/product?utm_source=google&ref=123#section" =
        .ok v ∧ normalizeUrl v = .ok v :=
  ⟨by decide,
   normalizeUrl_conditional_idempotent
     "https://www.amazon.com/product?utm_source=google&ref=123#section"
     ⟨"https".data, "www.amazon.com".data, none, "/product".data,
       [("utm_source".data, "google".data), ("ref".data, "123".data)],
       some "section".data⟩
     (by decide) (by decide) (by decide) (by decide)⟩
